import Mathlib

/-!
Shallow embedding of the change-detection and dependency-propagation core of
the k8s-confsec-reloader controller (Go sources under internal/controller),
together with proofs about it.

Modelling conventions:
* Go `map[string]T` values are embedded as association lists
  `List (String × T)`; Go map lookup `m[k]` with its zero-value default is
  `List.lookup` plus `Option.getD`.  Where a claim needs the map invariant
  (no duplicate keys) it is taken as an explicit hypothesis.
* Go byte strings are the UTF-8 bytes of the Lean string
  (`String.utf8EncodeChar`), so hashing agrees byte-for-byte with Go.
* `sort.Strings` sorts by bytewise (UTF-8) lexicographic comparison, which
  is embedded as `chLe` on code points; UTF-8 encoding is order-preserving
  on code points, so the two orders agree.  The sorted permutation of a
  multiset of strings is unique, hence any correct sort models `sort.Strings`;
  we use insertion sort, which the kernel can evaluate.
* Machine integers: FNV-1a state is a `Nat` reduced `% 2 ^ 64` at each step.
-/

/-! ### Bytewise string comparison (Go `sort.Strings` order) -/

/-- Lexicographic comparison of code-point sequences; on strings this agrees
with Go's bytewise `<=` because UTF-8 encoding preserves code-point order. -/
def chLe : List Char → List Char → Bool
  | [], _ => true
  | _ :: _, [] => false
  | a :: as, b :: bs =>
    if a.toNat < b.toNat then true
    else if b.toNat < a.toNat then false
    else chLe as bs

/-- The string order used by `sort.Strings`, as a proposition. -/
def strLe (a b : String) : Prop := chLe a.data b.data = true

instance : DecidableRel strLe := fun _ _ => instDecidableEqBool _ _

/-- Sorting a list of strings as Go's `sort.Strings` does. -/
def sortStrings (l : List String) : List String := List.insertionSort strLe l

/-! ### FNV-1a hashing and hex formatting (generateFNVHash) -/

/-- Bytes of a string, as Go's `[]byte(data)` produces them (UTF-8). -/
def strBytes (s : String) : List Nat :=
  (s.data.flatMap String.utf8EncodeChar).map UInt8.toNat

def fnvPrime : Nat := 1099511628211

def fnvOffsetBasis : Nat := 14695981039346656037

/-- 64-bit FNV-1a over a byte sequence, as `fnv.New64a` + `Write` computes it:
per byte, xor then multiply by the prime, in 64-bit wrapping arithmetic. -/
def fnv1a (bytes : List Nat) : Nat :=
  bytes.foldl (fun h b => ((h ^^^ b) * fnvPrime) % (2 ^ 64)) fnvOffsetBasis

/-- Lowercase hex digit characters, as `fmt.Sprintf` with verb x emits. -/
def hexDigits : List Char := "0123456789abcdef".toList

def hexDigitChar (n : Nat) : Char := hexDigits.getD n '0'

/-- Hex digits of `n`, most significant first, no leading zeros; `fuel`
bounds the number of digits (16 suffices for any 64-bit value). -/
def toHexCore : Nat → Nat → List Char
  | 0, _ => []
  | fuel + 1, n =>
    if n = 0 then []
    else toHexCore fuel (n / 16) ++ [hexDigitChar (n % 16)]

/-- Go's `fmt.Sprintf` with verb x on a `uint64`: minimal-length lowercase
hex, with the single digit 0 for zero.  Not zero-padded. -/
def toHex64 (n : Nat) : String :=
  if n = 0 then "0" else String.mk (toHexCore 16 n)

/-- generateFNVHash generates a fast FNV-1a hash from a given string
(hash/fnv New64a, then the digest rendered via Sprintf verb x). -/
def generateFNVHash (data : String) : String :=
  toHex64 (fnv1a (strBytes data))

/-! ### base64 standard encoding (encoding/base64 StdEncoding) -/

def base64Chars : List Char :=
  "ABCDEFGHIJKLMNOPQRSTUVWXYZabcdefghijklmnopqrstuvwxyz0123456789+/".toList

def b64Char (n : Nat) : Char := base64Chars.getD n 'A'

/-- Go `base64.StdEncoding.EncodeToString` over a byte list (bytes as `Nat`). -/
def base64Encode : List Nat → String
  | [] => ""
  | [a] =>
    String.mk [b64Char (a / 4), b64Char ((a % 4) * 16), '=', '=']
  | [a, b] =>
    String.mk [b64Char (a / 4), b64Char ((a % 4) * 16 + b / 16),
               b64Char ((b % 16) * 4), '=']
  | a :: b :: c :: rest =>
    String.mk [b64Char (a / 4), b64Char ((a % 4) * 16 + b / 16),
               b64Char ((b % 16) * 4 + c / 64), b64Char (c % 64)] ++
    base64Encode rest

/-! ### Small string utilities (strings.Join, strings.Split) -/

/-- Go `strings.Join(values, ";")`. -/
def joinSemi : List String → String
  | [] => ""
  | [x] => x
  | x :: rest => x ++ ";" ++ joinSemi rest

/-- Go `strings.Split(s, ",")` for the one-character separator: split a
character list at every comma. -/
def splitCommaChars (l : List Char) : List String :=
  l.foldr
    (fun c acc =>
      if c = ',' then "" :: acc
      else
        match acc with
        | [] => [String.mk [c]]
        | s :: rest => (String.mk (c :: s.data)) :: rest)
    [""]

def splitComma (s : String) : List String := splitCommaChars s.data

/-! ### ConfigurationObject model (corev1.ConfigMap / corev1.Secret) -/

/-- A ConfigMap as the controller reads it: `Data` (text values),
`BinaryData` (byte-blob values), and metadata `Annotations`.  The Go maps
are embedded as association lists; Go guarantees distinct keys, taken as a
hypothesis where needed. -/
structure ConfigMap where
  data : List (String × String)
  binaryData : List (String × List Nat)
  anns : List (String × String)
deriving DecidableEq

/-- The annotation keys from const.go. -/
def watchAnnKey : String := "k8s-confsec-reloader.io/watch"

def keyWatchAnnKey : String := "k8s-confsec-reloader.io/keys-to-watch"

def reloadTsAnnKey : String := "k8s-confsec-reloader.io/reload-timestamp"

/-- Go `obj.GetAnnotations()[k]`: map lookup with the zero value `""` for a
missing key (also when the map is nil). -/
def getAnn (cm : ConfigMap) (k : String) : String :=
  (cm.anns.lookup k).getD ""

/-- parseWatch (const.go): tracked unless the watch annotation is the exact
string "false"; absent (zero value "") or anything else means tracked.
(const.go's `client.Object` helpers are the live ones: secret_controller.go
calls them on a `*corev1.Secret`, which the older `*corev1.ConfigMap`-typed
copies inside configmap_controller.go could not accept.) -/
def parseWatch (cm : ConfigMap) : Bool :=
  getAnn cm watchAnnKey != "false"

/-- The legacy parseWatch still present in the configmap_controller.go
snapshot: when the annotation key is present, tracked only for the exact
string "true".  Superseded by `parseWatch`; kept to document the divergence. -/
def parseWatchLegacyCm (cm : ConfigMap) : Bool :=
  match cm.anns.lookup watchAnnKey with
  | some val => val == "true"
  | none => true

/-- parseKeysToWatch (const.go): nil (watch all keys) when the annotation is
absent or empty, otherwise `strings.Split(keys, ",")`. -/
def parseKeysToWatch (cm : ConfigMap) : List String :=
  let keys := getAnn cm keyWatchAnnKey
  if keys = "" then [] else splitComma keys

/-- One iteration of GetConfigMapHash's keysToWatch loop: append
`key=value` for the key's Data entry (if any), then for its BinaryData
entry (if any, base64-encoded). -/
def hashStep (cm : ConfigMap) (acc : List String) (key : String) : List String :=
  let acc1 :=
    match cm.data.lookup key with
    | some val => acc ++ [key ++ "=" ++ val]
    | none => acc
  match cm.binaryData.lookup key with
  | some val => acc1 ++ [key ++ "=" ++ base64Encode val]
  | none => acc1

/-- The `values` list GetConfigMapHash builds before sorting. -/
def hashValues (cm : ConfigMap) (keysToWatch : List String) : List String :=
  if keysToWatch.length > 0 then
    keysToWatch.foldl (hashStep cm) []
  else
    cm.data.map (fun kv => kv.1 ++ "=" ++ kv.2) ++
    cm.binaryData.map (fun kv => kv.1 ++ "=" ++ base64Encode kv.2)

/-- GetConfigMapHash: select watched entries (all entries when keysToWatch
is empty), render `key=value` strings, sort, join with ";", FNV-1a hash. -/
def GetConfigMapHash (cm : ConfigMap) (keysToWatch : List String) : String :=
  generateFNVHash (joinSemi (sortStrings (hashValues cm keysToWatch)))

/-- The UpdateFunc of getConfigMapFilter, on a well-typed (old, new) pair:
reject when tracking is off for `new`, otherwise accept iff the watched-key
hashes of old and new differ. -/
def shouldPropagate (old new : ConfigMap) : Bool :=
  if !parseWatch new then false
  else
    let keysToWatch := parseKeysToWatch new
    GetConfigMapHash old keysToWatch != GetConfigMapHash new keysToWatch

/-! ### Workload model (appsv1.Deployment, the fields the controller reads) -/

structure Volume where
  configMap : Option String
  secretName : Option String
deriving DecidableEq

/-- The `EnvVarSource` shapes the indexers inspect. -/
structure ValueFromSource where
  configMapKeyRef : Option String
  secretKeyRef : Option String
deriving DecidableEq

structure EnvVar where
  valueFrom : Option ValueFromSource
deriving DecidableEq

structure EnvFromSource where
  configMapRef : Option String
  secretRef : Option String
deriving DecidableEq

structure Container where
  env : List EnvVar
  envFrom : List EnvFromSource
deriving DecidableEq

structure PodSpec where
  volumes : List Volume
  containers : List Container
  initContainers : List Container
deriving DecidableEq

structure PodTemplate where
  anns : List (String × String)
  spec : PodSpec
deriving DecidableEq

/-- The deployment fields the controller touches, plus `replicas` as a
representative untouched spec field for frame reasoning. -/
structure Deployment where
  name : String
  replicas : Nat
  template : PodTemplate
deriving DecidableEq

/-- Name of the config map a container env entry references, if any
(`env.ValueFrom != nil && env.ValueFrom.ConfigMapKeyRef != nil`). -/
def envCMRef (e : EnvVar) : Option String :=
  match e.valueFrom with
  | some vf => vf.configMapKeyRef
  | none => none

def envSecretRef (e : EnvVar) : Option String :=
  match e.valueFrom with
  | some vf => vf.secretKeyRef
  | none => none

/-- Insertion into the Go set `map[string]struct` of collected names,
represented as a duplicate-free list in first-insertion order. -/
def insertName (s : List String) (x : String) : List String :=
  if x ∈ s then s else s ++ [x]

/-- Fold a list of sources into the name set, inserting `f a` when present. -/
def collectRefs {α : Type} (f : α → Option String)
    (acc : List String) (l : List α) : List String :=
  l.foldl
    (fun s a =>
      match f a with
      | some n => insertName s n
      | none => s)
    acc

/-- The per-container step of indexConfigMapRefs: scan `env`, then `envFrom`. -/
def containerCMStep (s : List String) (c : Container) : List String :=
  collectRefs (fun ef => ef.configMapRef) (collectRefs envCMRef s c.env) c.envFrom

/-- indexConfigMapRefs: names of the ConfigMaps a Deployment references via
volumes, container env / envFrom, and init-container env / envFrom.  The Go
code returns the keys of a set in unspecified order; the embedding returns
the duplicate-free list in first-insertion order (same set). -/
def indexConfigMapRefs (d : Deployment) : List String :=
  let s0 := collectRefs (fun v => v.configMap) [] d.template.spec.volumes
  let s1 := d.template.spec.containers.foldl containerCMStep s0
  d.template.spec.initContainers.foldl containerCMStep s1

def containerSecretStep (s : List String) (c : Container) : List String :=
  collectRefs (fun ef => ef.secretRef) (collectRefs envSecretRef s c.env) c.envFrom

/-- indexSecretRefs: same scan for Secret references
(volume `Secret.SecretName`, env `SecretKeyRef`, envFrom `SecretRef`). -/
def indexSecretRefs (d : Deployment) : List String :=
  let s0 := collectRefs (fun v => v.secretName) [] d.template.spec.volumes
  let s1 := d.template.spec.containers.foldl containerSecretStep s0
  d.template.spec.initContainers.foldl containerSecretStep s1

/-! ### Restart-triggering mutation (triggerReload / TriggerDeploymentReload) -/

/-- Go map assignment `m[k] = v` on an association list with distinct keys:
replace the binding in place, or append when absent (also covers the
make-map-if-nil branch). -/
def setAnn (k v : String) : List (String × String) → List (String × String)
  | [] => [(k, v)]
  | (k0, v0) :: rest =>
    if k0 = k then (k, v) :: rest else (k0, v0) :: setAnn k v rest

/-- triggerReload / TriggerDeploymentReload as the state transformation it
submits: set the reload-timestamp annotation on the pod template to the
current time, touching nothing else.  `now` stands for
`time.Now().Format(time.RFC3339)`; the patch call itself is the external
collaborator. -/
def TriggerDeploymentReload (now : String) (d : Deployment) : Deployment :=
  { d with template := { d.template with anns := setAnn reloadTsAnnKey now d.template.anns } }

/-! ### Reconciliation driver (Reconcile of both controllers) -/

/-- Outcome of the `r.Get` collaborator call: the object, or an error that
is or is not a NotFound. -/
inductive FetchResult where
  | found (cm : ConfigMap)
  | errNotFound
  | err (code : Nat)
deriving DecidableEq

/-- The collaborator environment of one Reconcile invocation: the re-fetch
result, the index-backed List result, and per-deployment patch outcomes
(`some code` = the patch call fails with that error). -/
structure ReconcileEnv where
  fetch : FetchResult
  listDeps : Except Nat (List Deployment)
  patch : Deployment → Option Nat

/-- The reload loop of Reconcile: patch each deployment in order, returning
the first patch error immediately; also records which deployments the loop
actually attempted to patch (in order). -/
def reloadLoop (patch : Deployment → Option Nat) :
    List Deployment → Except Nat Unit × List String
  | [] => (Except.ok (), [])
  | d :: rest =>
    match patch d with
    | some code => (Except.error code, [d.name])
    | none =>
      let (r, names) := reloadLoop patch rest
      (r, d.name :: names)

/-- Reconcile (identical shape in configmap_controller.go and
secret_controller.go): re-fetch — NotFound is a successful no-op, any other
fetch error is returned; list dependents — an error is returned; then the
reload loop.  The second component records the attempted patches. -/
def Reconcile (env : ReconcileEnv) : Except Nat Unit × List String :=
  match env.fetch with
  | FetchResult.errNotFound => (Except.ok (), [])
  | FetchResult.err code => (Except.error code, [])
  | FetchResult.found _ =>
    match env.listDeps with
    | Except.error code => (Except.error code, [])
    | Except.ok deps => reloadLoop env.patch deps

/-! ### Watched-content equality (the hypothesis of the scoping claims) -/

/-- "The watchedKeys-filtered contents of `a` and `b` are equal as sets of
key/value pairs, in any storage ordering": with an explicit non-empty key
list, the two objects give the same lookup on every watched key; with the
empty list (watch everything), the two data maps and the two binary maps
are permutations of one another. -/
def watchedEq (a b : ConfigMap) (keysToWatch : List String) : Prop :=
  match keysToWatch with
  | [] => a.data.Perm b.data ∧ a.binaryData.Perm b.binaryData
  | _ :: _ =>
    ∀ k ∈ keysToWatch,
      a.data.lookup k = b.data.lookup k ∧
      a.binaryData.lookup k = b.binaryData.lookup k

instance (a b : ConfigMap) (keysToWatch : List String) :
    Decidable (watchedEq a b keysToWatch) := by
  unfold watchedEq
  cases keysToWatch with
  | nil => exact instDecidableAnd
  | cons k ks => exact List.decidableBAll _ _

/-! ### The sort order is a linear order; sorting is permutation-invariant -/

theorem chLe_cons_iff (a b : Char) (as bs : List Char) :
    chLe (a :: as) (b :: bs) = true ↔
      a.toNat < b.toNat ∨ (a.toNat = b.toNat ∧ chLe as bs = true) := by
  simp only [chLe]
  split_ifs with h1 h2
  · simp [h1]
  · constructor
    · intro h; simp at h
    · rintro (h | ⟨he, _⟩)
      · exact absurd h h1
      · omega
  · have h3 : a.toNat = b.toNat := by omega
    constructor
    · intro h; exact Or.inr ⟨h3, h⟩
    · rintro (h | ⟨_, h⟩)
      · omega
      · exact h

theorem chLe_total : ∀ as bs : List Char, chLe as bs = true ∨ chLe bs as = true
  | [], _ => Or.inl rfl
  | _ :: _, [] => Or.inr rfl
  | a :: as, b :: bs => by
    rcases Nat.lt_trichotomy a.toNat b.toNat with h | h | h
    · exact Or.inl ((chLe_cons_iff a b as bs).mpr (Or.inl h))
    · rcases chLe_total as bs with ht | ht
      · exact Or.inl ((chLe_cons_iff a b as bs).mpr (Or.inr ⟨h, ht⟩))
      · exact Or.inr ((chLe_cons_iff b a bs as).mpr (Or.inr ⟨h.symm, ht⟩))
    · exact Or.inr ((chLe_cons_iff b a bs as).mpr (Or.inl h))

theorem chLe_trans : ∀ as bs cs : List Char,
    chLe as bs = true → chLe bs cs = true → chLe as cs = true
  | [], _, _, _, _ => rfl
  | _ :: _, [], _, h1, _ => by simp [chLe] at h1
  | _ :: _, _ :: _, [], _, h2 => by simp [chLe] at h2
  | a :: as, b :: bs, c :: cs, h1, h2 => by
    rcases (chLe_cons_iff a b as bs).mp h1 with hab | ⟨hab, htab⟩ <;>
      rcases (chLe_cons_iff b c bs cs).mp h2 with hbc | ⟨hbc, htbc⟩
    · exact (chLe_cons_iff a c as cs).mpr (Or.inl (by omega))
    · exact (chLe_cons_iff a c as cs).mpr (Or.inl (by omega))
    · exact (chLe_cons_iff a c as cs).mpr (Or.inl (by omega))
    · exact (chLe_cons_iff a c as cs).mpr
        (Or.inr ⟨by omega, chLe_trans as bs cs htab htbc⟩)

theorem chLe_antisymm : ∀ as bs : List Char,
    chLe as bs = true → chLe bs as = true → as = bs
  | [], [], _, _ => rfl
  | [], _ :: _, _, h2 => by simp [chLe] at h2
  | _ :: _, [], h1, _ => by simp [chLe] at h1
  | a :: as, b :: bs, h1, h2 => by
    rcases (chLe_cons_iff a b as bs).mp h1 with hab | ⟨hab, htab⟩ <;>
      rcases (chLe_cons_iff b a bs as).mp h2 with hba | ⟨hba, htba⟩ <;>
      try omega
    have hc : a = b := Char.ext (UInt32.ext hab)
    rw [hc, chLe_antisymm as bs htab htba]

instance : IsTotal String strLe :=
  ⟨fun a b => chLe_total a.data b.data⟩

instance : IsTrans String strLe :=
  ⟨fun a b c => chLe_trans a.data b.data c.data⟩

instance : IsAntisymm String strLe := by
  refine ⟨fun a b h1 h2 => ?_⟩
  cases a with
  | mk da =>
    cases b with
    | mk db => exact congrArg String.mk (chLe_antisymm da db h1 h2)

theorem sortStrings_perm (l : List String) : (sortStrings l).Perm l :=
  List.perm_insertionSort strLe l

theorem sortStrings_sorted (l : List String) : List.Sorted strLe (sortStrings l) :=
  List.sorted_insertionSort strLe l

/-- The sorted permutation of a multiset of strings is unique, so any two
permuted inputs sort to the same list (this is what makes the Go code's
`sort.Strings` neutralize map-iteration order). -/
theorem sortStrings_eq_of_perm {l1 l2 : List String} (h : l1.Perm l2) :
    sortStrings l1 = sortStrings l2 :=
  List.eq_of_perm_of_sorted
    (((sortStrings_perm l1).trans h).trans (sortStrings_perm l2).symm)
    (sortStrings_sorted l1) (sortStrings_sorted l2)

/-! ### The fingerprint is invariant under watched-content equality -/

theorem hashStep_congr (a b : ConfigMap) (k : String)
    (hd : a.data.lookup k = b.data.lookup k)
    (hb : a.binaryData.lookup k = b.binaryData.lookup k) (acc : List String) :
    hashStep a acc k = hashStep b acc k := by
  unfold hashStep
  rw [hd, hb]

theorem foldl_hashStep_congr (a b : ConfigMap) :
    ∀ (keys : List String) (acc : List String),
    (∀ k ∈ keys,
      a.data.lookup k = b.data.lookup k ∧
      a.binaryData.lookup k = b.binaryData.lookup k) →
    keys.foldl (hashStep a) acc = keys.foldl (hashStep b) acc
  | [], _, _ => rfl
  | k :: keys, acc, h => by
    have hk := h k (List.mem_cons_self k keys)
    simp only [List.foldl_cons, hashStep_congr a b k hk.1 hk.2 acc]
    exact foldl_hashStep_congr a b keys _ (fun x hx => h x (List.mem_cons_of_mem k hx))

theorem hashValues_nil (cm : ConfigMap) :
    hashValues cm [] =
      cm.data.map (fun kv => kv.1 ++ "=" ++ kv.2) ++
      cm.binaryData.map (fun kv => kv.1 ++ "=" ++ base64Encode kv.2) := rfl

theorem hashValues_cons (cm : ConfigMap) (k : String) (keys : List String) :
    hashValues cm (k :: keys) = (k :: keys).foldl (hashStep cm) [] := by
  unfold hashValues
  rw [if_pos (by simp)]

theorem getConfigMapHash_eq_of_watchedEq (a b : ConfigMap)
    (keysToWatch : List String) (h : watchedEq a b keysToWatch) :
    GetConfigMapHash a keysToWatch = GetConfigMapHash b keysToWatch := by
  unfold GetConfigMapHash
  cases keysToWatch with
  | nil =>
    rcases h with ⟨hd, hb⟩
    have hperm : (hashValues a []).Perm (hashValues b []) := by
      rw [hashValues_nil, hashValues_nil]
      exact (hd.map _).append (hb.map _)
    rw [sortStrings_eq_of_perm hperm]
  | cons k keys =>
    have hfold := foldl_hashStep_congr a b (k :: keys) [] h
    rw [hashValues_cons, hashValues_cons, hfold]

/-! ### The empty key list selects exactly all entries (machinery for C6) -/

/-- Remove every binding of key `k` from an association list. -/
def eraseKey {β : Type} (k : String) (l : List (String × β)) : List (String × β) :=
  l.filter (fun kv => kv.1 != k)

/-- The `key=value` strings GetConfigMapHash emits for a single watched key. -/
def renderKey (data : List (String × String)) (bin : List (String × List Nat))
    (k : String) : List String :=
  (match data.lookup k with
   | some v => [k ++ "=" ++ v]
   | none => []) ++
  (match bin.lookup k with
   | some v => [k ++ "=" ++ base64Encode v]
   | none => [])

theorem hashStep_eq_append (cm : ConfigMap) (acc : List String) (k : String) :
    hashStep cm acc k = acc ++ renderKey cm.data cm.binaryData k := by
  unfold hashStep renderKey
  cases cm.data.lookup k <;> cases cm.binaryData.lookup k <;>
    simp [List.append_assoc]

theorem foldl_hashStep_flatMap (cm : ConfigMap) :
    ∀ (keys : List String) (acc : List String),
    keys.foldl (hashStep cm) acc = acc ++ keys.flatMap (renderKey cm.data cm.binaryData)
  | [], acc => by simp
  | k :: keys, acc => by
    simp only [List.foldl_cons, List.flatMap_cons, hashStep_eq_append]
    rw [foldl_hashStep_flatMap cm keys, List.append_assoc]

theorem eraseKey_cons_ne {β : Type} {k k0 : String} (v0 : β)
    (t : List (String × β)) (hne : k0 ≠ k) :
    eraseKey k ((k0, v0) :: t) = (k0, v0) :: eraseKey k t := by
  simp [eraseKey, List.filter_cons, hne]

theorem eraseKey_cons_self {β : Type} {k : String} (v0 : β)
    (t : List (String × β)) :
    eraseKey k ((k, v0) :: t) = eraseKey k t := by
  simp [eraseKey, List.filter_cons]

theorem lookup_eraseKey {β : Type} (k k' : String) (h : k' ≠ k) :
    ∀ l : List (String × β), (eraseKey k l).lookup k' = l.lookup k'
  | [] => rfl
  | (k0, v0) :: t => by
    by_cases hk0 : k0 = k
    · rw [hk0, eraseKey_cons_self, lookup_eraseKey k k' h t]
      have hne : (k' == k) = false := beq_false_of_ne h
      simp [List.lookup, hne]
    · rw [eraseKey_cons_ne v0 t hk0]
      simp only [List.lookup]
      cases hc : k' == k0 with
      | true => rfl
      | false => exact lookup_eraseKey k k' h t

theorem eraseKey_eq_of_lookup_none {β : Type} (k : String) :
    ∀ l : List (String × β), l.lookup k = none → eraseKey k l = l
  | [], _ => rfl
  | (k0, v0) :: t, h => by
    simp only [List.lookup] at h
    cases hc : k == k0 with
    | true => rw [hc] at h; exact Option.noConfusion h
    | false =>
      rw [hc] at h
      have hne : k0 ≠ k := fun he => by simp [he] at hc
      rw [eraseKey_cons_ne v0 t hne, eraseKey_eq_of_lookup_none k t h]

theorem lookup_eq_none_of_not_mem {β : Type} (k : String) :
    ∀ l : List (String × β), k ∉ l.map Prod.fst → l.lookup k = none
  | [], _ => rfl
  | (k0, v0) :: t, h => by
    simp only [List.map_cons, List.mem_cons] at h
    push_neg at h
    simp only [List.lookup, beq_false_of_ne h.1]
    exact lookup_eq_none_of_not_mem k t h.2

theorem perm_cons_eraseKey {β : Type} (k : String) (v : β) :
    ∀ l : List (String × β), (l.map Prod.fst).Nodup → l.lookup k = some v →
      l.Perm ((k, v) :: eraseKey k l)
  | [], _, h => by simp [List.lookup] at h
  | (k0, v0) :: t, hnd, h => by
    simp only [List.lookup] at h
    cases hc : k == k0 with
    | true =>
      rw [hc] at h
      have hk : k = k0 := beq_iff_eq.mp hc
      have hv : v0 = v := by simpa using h
      simp only [List.map_cons, List.nodup_cons] at hnd
      have hkn : k ∉ t.map Prod.fst := by rw [hk]; exact hnd.1
      have ht : eraseKey k t = t :=
        eraseKey_eq_of_lookup_none k t (lookup_eq_none_of_not_mem k t hkn)
      rw [← hk, ← hv, eraseKey_cons_self v0 t, ht]
    | false =>
      rw [hc] at h
      have hne : k0 ≠ k := fun he => by simp [he] at hc
      simp only [List.map_cons, List.nodup_cons] at hnd
      have hp := perm_cons_eraseKey k v t hnd.2 h
      rw [eraseKey_cons_ne v0 t hne]
      exact (hp.cons (k0, v0)).trans (List.Perm.swap (k, v) (k0, v0) (eraseKey k t))

theorem nodup_keys_eraseKey {β : Type} (k : String) (l : List (String × β))
    (h : (l.map Prod.fst).Nodup) : ((eraseKey k l).map Prod.fst).Nodup :=
  h.sublist ((List.filter_sublist l).map Prod.fst)

theorem mem_keys_eraseKey {β : Type} (k k' : String) (l : List (String × β))
    (h : k' ∈ (eraseKey k l).map Prod.fst) : k' ∈ l.map Prod.fst ∧ k' ≠ k := by
  rcases List.mem_map.mp h with ⟨kv, hmem, hfst⟩
  rcases List.mem_filter.mp hmem with ⟨hin, hcond⟩
  exact ⟨List.mem_map.mpr ⟨kv, hin, hfst⟩, hfst ▸ bne_iff_ne.mp hcond⟩

theorem flatMapCongr {α β : Type} (f g : α → List β) :
    ∀ l : List α, (∀ x ∈ l, f x = g x) → l.flatMap f = l.flatMap g
  | [], _ => rfl
  | x :: t, h => by
    simp only [List.flatMap_cons, h x (List.mem_cons_self x t)]
    rw [flatMapCongr f g t (fun y hy => h y (List.mem_cons_of_mem x hy))]

theorem perm_part_eraseKey {β : Type} (f : String × β → String)
    (l : List (String × β)) (k : String) (hnd : (l.map Prod.fst).Nodup) :
    (l.map f).Perm
      ((match l.lookup k with
        | some v => [f (k, v)]
        | none => []) ++ (eraseKey k l).map f) := by
  cases hlk : l.lookup k with
  | some v =>
    have hp := perm_cons_eraseKey k v l hnd hlk
    simpa using hp.map f
  | none =>
    rw [eraseKey_eq_of_lookup_none k l hlk]
    simp

theorem flatMap_renderKey_perm :
    ∀ (keys : List String) (data : List (String × String))
      (bin : List (String × List Nat)),
    keys.Nodup → (data.map Prod.fst).Nodup → (bin.map Prod.fst).Nodup →
    (∀ k ∈ data.map Prod.fst, k ∈ keys) →
    (∀ k ∈ bin.map Prod.fst, k ∈ keys) →
    (keys.flatMap (renderKey data bin)).Perm
      (data.map (fun kv => kv.1 ++ "=" ++ kv.2) ++
       bin.map (fun kv => kv.1 ++ "=" ++ base64Encode kv.2))
  | [], data, bin, _, _, _, hcd, hcb => by
    have hdata : data = [] := by
      cases data with
      | nil => rfl
      | cons hd tl => exact absurd (hcd hd.1 (by simp)) (by simp)
    have hbin : bin = [] := by
      cases bin with
      | nil => rfl
      | cons hd tl => exact absurd (hcb hd.1 (by simp)) (by simp)
    subst hdata hbin
    simp
  | k :: rest, data, bin, hndk, hndd, hndb, hcd, hcb => by
    simp only [List.nodup_cons] at hndk
    have hRest : rest.flatMap (renderKey data bin) =
        rest.flatMap (renderKey (eraseKey k data) (eraseKey k bin)) := by
      refine flatMapCongr _ _ rest (fun x hx => ?_)
      have hxk : x ≠ k := fun he => hndk.1 (he ▸ hx)
      unfold renderKey
      rw [lookup_eraseKey k x hxk data, lookup_eraseKey k x hxk bin]
    have hIH := flatMap_renderKey_perm rest (eraseKey k data) (eraseKey k bin)
      hndk.2 (nodup_keys_eraseKey k data hndd) (nodup_keys_eraseKey k bin hndb)
      (fun x hx => by
        rcases mem_keys_eraseKey k x data hx with ⟨hm, hne⟩
        rcases List.mem_cons.mp (hcd x hm) with h | h
        · exact absurd h hne
        · exact h)
      (fun x hx => by
        rcases mem_keys_eraseKey k x bin hx with ⟨hm, hne⟩
        rcases List.mem_cons.mp (hcb x hm) with h | h
        · exact absurd h hne
        · exact h)
    have hD := perm_part_eraseKey (fun kv => kv.1 ++ "=" ++ kv.2) data k hndd
    have hB := perm_part_eraseKey (fun kv => kv.1 ++ "=" ++ base64Encode kv.2)
      bin k hndb
    rw [List.perm_iff_count]
    intro s
    have e1 := hD.count_eq s
    have e2 := hB.count_eq s
    have e3 := hIH.count_eq s
    simp only [List.flatMap_cons, List.count_append, renderKey] at e1 e2 e3 ⊢
    rw [hRest]
    cases hdl : data.lookup k <;> cases hbl : bin.lookup k <;>
      simp only [hdl, hbl, List.count_append, List.count_cons, List.count_nil]
        at e1 e2 ⊢ <;>
      omega

/-! ### Reference extraction: membership and dedup (machinery for C7) -/

theorem mem_insertName (s : List String) (y x : String) :
    x ∈ insertName s y ↔ x ∈ s ∨ x = y := by
  unfold insertName
  by_cases hy : y ∈ s
  · simp only [if_pos hy]
    constructor
    · exact Or.inl
    · rintro (h | h)
      · exact h
      · exact h ▸ hy
  · simp [if_neg hy, List.mem_append]

theorem nodup_insertName (s : List String) (y : String) (h : s.Nodup) :
    (insertName s y).Nodup := by
  unfold insertName
  by_cases hy : y ∈ s
  · simpa [if_pos hy] using h
  · simp [if_neg hy, List.nodup_append, h, hy]

theorem mem_collectRefs {α : Type} (f : α → Option String) :
    ∀ (l : List α) (acc : List String) (x : String),
    x ∈ collectRefs f acc l ↔ x ∈ acc ∨ ∃ a ∈ l, f a = some x
  | [], acc, x => by simp [collectRefs]
  | a :: l, acc, x => by
    unfold collectRefs
    simp only [List.foldl_cons]
    cases hfa : f a with
    | none =>
      rw [show (List.foldl _ acc l : List String) = collectRefs f acc l from rfl,
        mem_collectRefs f l acc x]
      constructor
      · rintro (h | ⟨b, hb, hfb⟩)
        · exact Or.inl h
        · exact Or.inr ⟨b, List.mem_cons_of_mem a hb, hfb⟩
      · rintro (h | ⟨b, hb, hfb⟩)
        · exact Or.inl h
        · rcases List.mem_cons.mp hb with hb | hb
          · rw [hb, hfa] at hfb; exact Option.noConfusion hfb
          · exact Or.inr ⟨b, hb, hfb⟩
    | some n =>
      rw [show (List.foldl _ (insertName acc n) l : List String)
            = collectRefs f (insertName acc n) l from rfl,
        mem_collectRefs f l (insertName acc n) x, mem_insertName acc n x]
      constructor
      · rintro ((h | h) | ⟨b, hb, hfb⟩)
        · exact Or.inl h
        · exact Or.inr ⟨a, List.mem_cons_self a l, by rw [hfa, h]⟩
        · exact Or.inr ⟨b, List.mem_cons_of_mem a hb, hfb⟩
      · rintro (h | ⟨b, hb, hfb⟩)
        · exact Or.inl (Or.inl h)
        · rcases List.mem_cons.mp hb with hb | hb
          · rw [hb, hfa] at hfb
            exact Or.inl (Or.inr (Option.some.inj hfb).symm)
          · exact Or.inr ⟨b, hb, hfb⟩

theorem nodup_collectRefs {α : Type} (f : α → Option String) :
    ∀ (l : List α) (acc : List String), acc.Nodup → (collectRefs f acc l).Nodup
  | [], acc, h => h
  | a :: l, acc, h => by
    unfold collectRefs
    simp only [List.foldl_cons]
    cases hfa : f a with
    | none => exact nodup_collectRefs f l acc h
    | some n => exact nodup_collectRefs f l (insertName acc n) (nodup_insertName acc n h)

/-- Membership after folding a per-element step whose membership behavior is
known: the result holds the accumulator plus everything some element
contributes. -/
theorem mem_foldl_of_step {β : Type} (g : List String → β → List String)
    (P : β → String → Prop)
    (hg : ∀ s b x, x ∈ g s b ↔ x ∈ s ∨ P b x) :
    ∀ (l : List β) (acc : List String) (x : String),
    x ∈ l.foldl g acc ↔ x ∈ acc ∨ ∃ b ∈ l, P b x
  | [], acc, x => by simp
  | b :: l, acc, x => by
    simp only [List.foldl_cons]
    rw [mem_foldl_of_step g P hg l (g acc b) x]
    constructor
    · rintro (h | ⟨c, hc, hPc⟩)
      · rcases (hg acc b x).mp h with h | h
        · exact Or.inl h
        · exact Or.inr ⟨b, List.mem_cons_self b l, h⟩
      · exact Or.inr ⟨c, List.mem_cons_of_mem b hc, hPc⟩
    · rintro (h | ⟨c, hc, hPc⟩)
      · exact Or.inl ((hg acc b x).mpr (Or.inl h))
      · rcases List.mem_cons.mp hc with hc | hc
        · exact Or.inl ((hg acc b x).mpr (Or.inr (hc ▸ hPc)))
        · exact Or.inr ⟨c, hc, hPc⟩

theorem nodup_foldl_of_step {β : Type} (g : List String → β → List String)
    (hg : ∀ s b, s.Nodup → (g s b).Nodup) :
    ∀ (l : List β) (acc : List String), acc.Nodup → (l.foldl g acc).Nodup
  | [], _, h => h
  | b :: l, acc, h => by
    simp only [List.foldl_cons]
    exact nodup_foldl_of_step g hg l (g acc b) (hg acc b h)

theorem mem_containerCMStep (s : List String) (c : Container) (x : String) :
    x ∈ containerCMStep s c ↔
      x ∈ s ∨ ((∃ e ∈ c.env, envCMRef e = some x) ∨
               (∃ ef ∈ c.envFrom, ef.configMapRef = some x)) := by
  unfold containerCMStep
  rw [mem_collectRefs, mem_collectRefs]
  exact or_assoc

theorem mem_containerSecretStep (s : List String) (c : Container) (x : String) :
    x ∈ containerSecretStep s c ↔
      x ∈ s ∨ ((∃ e ∈ c.env, envSecretRef e = some x) ∨
               (∃ ef ∈ c.envFrom, ef.secretRef = some x)) := by
  unfold containerSecretStep
  rw [mem_collectRefs, mem_collectRefs]
  exact or_assoc

/-! ### setAnn: the Go map assignment on the pod-template annotations -/

theorem lookup_setAnn_self (k v : String) :
    ∀ l : List (String × String), (setAnn k v l).lookup k = some v
  | [] => by simp [setAnn, List.lookup]
  | (k0, v0) :: t => by
    unfold setAnn
    by_cases h : k0 = k
    · simp [if_pos h, List.lookup]
    · simp only [if_neg h, List.lookup, beq_false_of_ne (fun he => h he.symm)]
      exact lookup_setAnn_self k v t

theorem lookup_setAnn_ne (k v k' : String) (h : k' ≠ k) :
    ∀ l : List (String × String), (setAnn k v l).lookup k' = l.lookup k'
  | [] => by simp [setAnn, List.lookup, beq_false_of_ne h]
  | (k0, v0) :: t => by
    unfold setAnn
    by_cases hk : k0 = k
    · simp only [if_pos hk, List.lookup, beq_false_of_ne h, hk]
    · simp only [if_neg hk, List.lookup]
      cases hc : k' == k0 with
      | true => rfl
      | false => exact lookup_setAnn_ne k v k' h t

theorem setAnn_setAnn (k v1 v2 : String) :
    ∀ l : List (String × String), setAnn k v2 (setAnn k v1 l) = setAnn k v2 l
  | [] => by simp [setAnn]
  | (k0, v0) :: t => by
    unfold setAnn
    by_cases h : k0 = k
    · simp [if_pos h, setAnn]
    · simp only [if_neg h, setAnn, if_neg h]
      rw [setAnn_setAnn k v1 v2 t]

/-! ### The reload loop: early return on the first patch failure -/

theorem reloadLoop_all_ok (patch : Deployment → Option Nat) :
    ∀ deps : List Deployment, (∀ d ∈ deps, patch d = none) →
      reloadLoop patch deps = (Except.ok (), deps.map Deployment.name)
  | [], _ => rfl
  | d :: deps, h => by
    unfold reloadLoop
    rw [h d (List.mem_cons_self d deps),
      reloadLoop_all_ok patch deps (fun x hx => h x (List.mem_cons_of_mem d hx))]
    rfl

theorem reloadLoop_first_error (patch : Deployment → Option Nat)
    (d : Deployment) (code : Nat) (hd : patch d = some code) :
    ∀ (pre post : List Deployment), (∀ x ∈ pre, patch x = none) →
      reloadLoop patch (pre ++ d :: post) =
        (Except.error code, (pre ++ [d]).map Deployment.name)
  | [], post, _ => by simp [reloadLoop, hd]
  | p :: pre, post, h => by
    have hrec := reloadLoop_first_error patch d code hd pre post
      (fun x hx => h x (List.mem_cons_of_mem p hx))
    simp only [List.cons_append, reloadLoop, h p (List.mem_cons_self p pre),
      List.map_cons]
    have hrec2 : reloadLoop patch (pre.append (d :: post)) =
        (Except.error code, List.map Deployment.name (pre ++ [d])) := hrec
    rw [hrec2]

/-! ### Hex rendering: at most 16 lowercase hex digits (machinery for C9) -/

theorem hexDigitChar_mem (n : Nat) : hexDigitChar n ∈ hexDigits := by
  unfold hexDigitChar
  by_cases h : n < 16
  · interval_cases n <;> decide
  · have h16 : hexDigits.length ≤ n := by
      have hlen : hexDigits.length = 16 := by decide
      omega
    rw [List.getD_eq_default hexDigits '0' h16]
    decide

theorem toHexCore_length_le : ∀ (fuel n : Nat), (toHexCore fuel n).length ≤ fuel
  | 0, _ => Nat.le_refl 0
  | fuel + 1, n => by
    unfold toHexCore
    by_cases h : n = 0
    · simp [h]
    · simp only [if_neg h, List.length_append, List.length_cons, List.length_nil]
      have := toHexCore_length_le fuel (n / 16)
      omega

theorem toHexCore_mem_hexDigits :
    ∀ (fuel n : Nat) (c : Char), c ∈ toHexCore fuel n → c ∈ hexDigits
  | 0, _, _, h => absurd h (List.not_mem_nil _)
  | fuel + 1, n, c, h => by
    unfold toHexCore at h
    by_cases hn : n = 0
    · rw [if_pos hn] at h
      exact absurd h (List.not_mem_nil _)
    · rw [if_neg hn] at h
      rcases List.mem_append.mp h with h | h
      · exact toHexCore_mem_hexDigits fuel (n / 16) c h
      · rcases List.mem_singleton.mp h with rfl
        exact hexDigitChar_mem (n % 16)

theorem toHex64_length_le (n : Nat) : (toHex64 n).length ≤ 16 := by
  unfold toHex64
  by_cases h : n = 0
  · rw [if_pos h]
    decide
  · rw [if_neg h]
    show (toHexCore 16 n).length ≤ 16
    exact toHexCore_length_le 16 n

theorem toHex64_mem_hexDigits (n : Nat) (c : Char) (h : c ∈ (toHex64 n).data) :
    c ∈ hexDigits := by
  unfold toHex64 at h
  by_cases hn : n = 0
  · rw [if_pos hn] at h
    rcases List.mem_singleton.mp h with rfl
    decide
  · rw [if_neg hn] at h
    exact toHexCore_mem_hexDigits 16 n c h

theorem foldl_fnv_lt :
    ∀ (l : List Nat) (h0 : Nat), h0 < 2 ^ 64 →
      l.foldl (fun h b => ((h ^^^ b) * fnvPrime) % (2 ^ 64)) h0 < 2 ^ 64
  | [], _, hh => hh
  | b :: l, h0, _ =>
    foldl_fnv_lt l _ (Nat.mod_lt _ (by norm_num))

theorem fnv1a_lt (bytes : List Nat) : fnv1a bytes < 2 ^ 64 :=
  foldl_fnv_lt bytes fnvOffsetBasis (by norm_num [fnvOffsetBasis])

/-- Extra fuel beyond what the value needs does not change the rendered hex
digits, so fuel 16 renders any 64-bit value exactly (16 ^ 16 = 2 ^ 64). -/
theorem toHexCore_fuel_irrelevant :
    ∀ (fuel extra n : Nat), n < 16 ^ fuel →
      toHexCore (fuel + extra) n = toHexCore fuel n
  | 0, extra, n, h => by
    have hn : n = 0 := by omega
    cases extra with
    | zero => rfl
    | succ e => simp [toHexCore, hn]
  | fuel + 1, extra, n, h => by
    by_cases hn : n = 0
    · have h1 : fuel + 1 + extra = (fuel + extra) + 1 := by omega
      simp [toHexCore, hn, h1]
    · have h1 : fuel + 1 + extra = (fuel + extra) + 1 := by omega
      rw [h1]
      show (if n = 0 then [] else toHexCore (fuel + extra) (n / 16) ++ [hexDigitChar (n % 16)]) = _
      rw [if_neg hn]
      show _ = (if n = 0 then [] else toHexCore fuel (n / 16) ++ [hexDigitChar (n % 16)])
      rw [if_neg hn]
      have hdiv : n / 16 < 16 ^ fuel := by
        rw [Nat.div_lt_iff_lt_mul (by norm_num)]
        calc n < 16 ^ (fuel + 1) := h
          _ = 16 ^ fuel * 16 := by ring
      rw [toHexCore_fuel_irrelevant fuel extra (n / 16) hdiv]

/-! ### Reference predicates spelled out from the Deployment spec (for C7) -/

/-- A Deployment references ConfigMap `n`: via a volume, a container env
entry or bulk env import, or the same in an init container. -/
def referencesConfigMap (d : Deployment) (n : String) : Prop :=
  (∃ v ∈ d.template.spec.volumes, v.configMap = some n) ∨
  (∃ c ∈ d.template.spec.containers,
    (∃ e ∈ c.env, envCMRef e = some n) ∨
    (∃ ef ∈ c.envFrom, ef.configMapRef = some n)) ∨
  (∃ c ∈ d.template.spec.initContainers,
    (∃ e ∈ c.env, envCMRef e = some n) ∨
    (∃ ef ∈ c.envFrom, ef.configMapRef = some n))

/-- A Deployment references Secret `n` via the same three mechanisms. -/
def referencesSecret (d : Deployment) (n : String) : Prop :=
  (∃ v ∈ d.template.spec.volumes, v.secretName = some n) ∨
  (∃ c ∈ d.template.spec.containers,
    (∃ e ∈ c.env, envSecretRef e = some n) ∨
    (∃ ef ∈ c.envFrom, ef.secretRef = some n)) ∨
  (∃ c ∈ d.template.spec.initContainers,
    (∃ e ∈ c.env, envSecretRef e = some n) ∨
    (∃ ef ∈ c.envFrom, ef.secretRef = some n))

/-! ### Claims -/

/-- Claim C1, amended.  For an update transition with tracking enabled on
`new`: a change confined to keys outside the watched set never propagates
(part 1), and an in-watched-set change propagates exactly when it changes
the watched-selection fingerprint (part 2) — the unescaped `key=value` /
`;` rendering (and 64-bit FNV collisions) can make distinct watched
contents fingerprint-equal, which suppresses propagation. -/
theorem c1_key_scoping (old new : ConfigMap) (h : parseWatch new = true) :
    (watchedEq old new (parseKeysToWatch new) → shouldPropagate old new = false) ∧
    (shouldPropagate old new = true ↔
      GetConfigMapHash old (parseKeysToWatch new) ≠
      GetConfigMapHash new (parseKeysToWatch new)) := by
  constructor
  · intro hw
    have heq := getConfigMapHash_eq_of_watchedEq old new (parseKeysToWatch new) hw
    simp [shouldPropagate, h, heq]
  · simp [shouldPropagate, h, bne_iff_ne]

def cmC1WOld : ConfigMap :=
  ⟨[("x", "1"), ("y", "2")], [], [(keyWatchAnnKey, "x")]⟩

def cmC1WNew : ConfigMap :=
  ⟨[("x", "1"), ("y", "3")], [], [(keyWatchAnnKey, "x")]⟩

theorem c1_key_scoping_witness :
    parseWatch cmC1WNew = true ∧ shouldPropagate cmC1WOld cmC1WNew = false :=
  ⟨by decide,
   (c1_key_scoping cmC1WOld cmC1WNew (by decide)).1 (by decide)⟩

def cmC1Old : ConfigMap := ⟨[("a", "1;b=2")], [], []⟩

def cmC1New : ConfigMap :=
  ⟨[("a", "1"), ("b", "2")], [], [(keyWatchAnnKey, "a,b")]⟩

/-- Claim C1 as stated is false on the code: here tracking is enabled, the
watched key a changes value (from a literal containing the joiner characters
to a different value), yet the filter returns false, because the rendered
watched selections of old and new join to the same string. -/
theorem c1_counterexample :
    parseWatch cmC1New = true ∧
    parseKeysToWatch cmC1New = ["a", "b"] ∧
    cmC1New.data.lookup "a" ≠ cmC1Old.data.lookup "a" ∧
    shouldPropagate cmC1Old cmC1New = false := by decide

/-- Claim C2: two ConfigurationObjects whose watchedKeys-filtered contents
are equal as sets of key/value pairs, in any storage ordering, fingerprint
identically. -/
theorem c2_fingerprint_deterministic (a b : ConfigMap)
    (keysToWatch : List String) (h : watchedEq a b keysToWatch) :
    GetConfigMapHash a keysToWatch = GetConfigMapHash b keysToWatch :=
  getConfigMapHash_eq_of_watchedEq a b keysToWatch h

def cmC2A : ConfigMap := ⟨[("x", "1"), ("y", "2")], [("b", [0, 255])], []⟩

def cmC2B : ConfigMap := ⟨[("y", "2"), ("x", "1")], [("b", [0, 255])], []⟩

theorem c2_fingerprint_deterministic_witness :
    watchedEq cmC2A cmC2B [] ∧ GetConfigMapHash cmC2A [] = GetConfigMapHash cmC2B [] :=
  ⟨by decide, c2_fingerprint_deterministic cmC2A cmC2B [] (by decide)⟩

/-- Claim C3, amended.  A failing restart mutation on one dependent aborts
the loop: the event fails with that first error and the dependents after it
are never attempted (the attempted list stops at the failing one); a
failure of the list-dependents step also fails the whole event, with no
attempts. -/
theorem c3_failure_aborts_loop (cm : ConfigMap)
    (patch : Deployment → Option Nat) (pre post : List Deployment)
    (d : Deployment) (code : Nat)
    (hpre : ∀ x ∈ pre, patch x = none) (hd : patch d = some code) :
    Reconcile ⟨FetchResult.found cm, Except.ok (pre ++ d :: post), patch⟩ =
      (Except.error code, (pre ++ [d]).map Deployment.name) ∧
    ∀ lcode : Nat,
      Reconcile ⟨FetchResult.found cm, Except.error lcode, patch⟩ =
        (Except.error lcode, []) := by
  refine ⟨?_, fun lcode => rfl⟩
  show reloadLoop patch (pre ++ d :: post) = _
  exact reloadLoop_first_error patch d code hd pre post hpre

def depC3A : Deployment := ⟨"app-a", 1, ⟨[], ⟨[], [], []⟩⟩⟩

def depC3B : Deployment := ⟨"app-b", 1, ⟨[], ⟨[], [], []⟩⟩⟩

def patchC3 : Deployment → Option Nat :=
  fun d => if d.name = "app-a" then some 7 else none

def envC3 : ReconcileEnv :=
  ⟨FetchResult.found ⟨[], [], []⟩, Except.ok [depC3A, depC3B], patchC3⟩

/-- Claim C3 as stated is false on the code: the patch on app-a fails and
app-b — whose own patch would succeed — is never attempted, and the whole
event fails with the patch error, not only on list failures. -/
theorem c3_counterexample :
    patchC3 depC3B = none ∧
    Reconcile envC3 = (Except.error 7, ["app-a"]) ∧
    "app-b" ∉ (Reconcile envC3).2 := by
  refine ⟨rfl, rfl, ?_⟩
  decide

theorem c3_failure_aborts_loop_witness :
    Reconcile ⟨FetchResult.found ⟨[], [], []⟩, Except.ok [depC3A, depC3B], patchC3⟩ =
      (Except.error 7, ["app-a"]) :=
  (c3_failure_aborts_loop ⟨[], [], []⟩ patchC3 [] [depC3B] depC3A 7
    (by intro x hx; cases hx) (by decide)).1

/-- Claim C4: a watch annotation of "false" on the new object makes the
filter reject regardless of content; when the annotation is absent (Go zero
value "") or "true", the toggle does not suppress: the filter decides purely
by fingerprint difference. -/
theorem c4_tracking_toggle (old new : ConfigMap) :
    (getAnn new watchAnnKey = "false" → shouldPropagate old new = false) ∧
    ((getAnn new watchAnnKey = "" ∨ getAnn new watchAnnKey = "true") →
      (shouldPropagate old new = true ↔
        GetConfigMapHash old (parseKeysToWatch new) ≠
        GetConfigMapHash new (parseKeysToWatch new))) := by
  constructor
  · intro hf
    simp [shouldPropagate, parseWatch, hf]
  · intro ht
    have hw : parseWatch new = true := by
      rcases ht with h | h <;> simp [parseWatch, h]
    simp [shouldPropagate, hw, bne_iff_ne]

def cmC4Old : ConfigMap := ⟨[("a", "2")], [], []⟩

def cmC4OffNew : ConfigMap := ⟨[("a", "1")], [], [(watchAnnKey, "false")]⟩

def cmC4OnNew : ConfigMap := ⟨[("a", "1")], [], [(watchAnnKey, "true")]⟩

theorem c4_tracking_toggle_witness :
    shouldPropagate cmC4Old cmC4OffNew = false ∧
    (shouldPropagate cmC4Old cmC4OnNew = true ↔
      GetConfigMapHash cmC4Old (parseKeysToWatch cmC4OnNew) ≠
      GetConfigMapHash cmC4OnNew (parseKeysToWatch cmC4OnNew)) :=
  ⟨(c4_tracking_toggle cmC4Old cmC4OffNew).1 (by decide),
   (c4_tracking_toggle cmC4Old cmC4OnNew).2 (Or.inr (by decide))⟩

/-- Claim C5: a NotFound on the re-fetch completes the reconciliation
successfully; a non-NotFound fetch error, a list error, and a patch error
are each returned to the caller unmodified (same error), and when every
collaborator call succeeds the reconciliation succeeds — no other
suppression. -/
theorem c5_error_propagation (env : ReconcileEnv) :
    (env.fetch = FetchResult.errNotFound → Reconcile env = (Except.ok (), [])) ∧
    (∀ code : Nat, env.fetch = FetchResult.err code →
      Reconcile env = (Except.error code, [])) ∧
    (∀ (cm : ConfigMap) (code : Nat), env.fetch = FetchResult.found cm →
      env.listDeps = Except.error code →
      Reconcile env = (Except.error code, [])) ∧
    (∀ (cm : ConfigMap) (deps : List Deployment),
      env.fetch = FetchResult.found cm → env.listDeps = Except.ok deps →
      ((∀ d ∈ deps, env.patch d = none) →
        Reconcile env = (Except.ok (), deps.map Deployment.name)) ∧
      (∀ (pre post : List Deployment) (d : Deployment) (code : Nat),
        deps = pre ++ d :: post → (∀ x ∈ pre, env.patch x = none) →
        env.patch d = some code →
        Reconcile env = (Except.error code, (pre ++ [d]).map Deployment.name))) := by
  refine ⟨fun h => by simp [Reconcile, h],
    fun code h => by simp [Reconcile, h],
    fun cm code hf hl => by simp [Reconcile, hf, hl],
    fun cm deps hf hl =>
      ⟨fun hall => by
        simp only [Reconcile, hf, hl]
        exact reloadLoop_all_ok env.patch deps hall,
       fun pre post d code hdeps hpre hd => by
        simp only [Reconcile, hf, hl, hdeps]
        exact reloadLoop_first_error env.patch d code hd pre post hpre⟩⟩

def envC5NotFound : ReconcileEnv :=
  ⟨FetchResult.errNotFound, Except.ok [], fun _ => none⟩

def envC5ListErr : ReconcileEnv :=
  ⟨FetchResult.found ⟨[], [], []⟩, Except.error 3, fun _ => none⟩

def envC5AllOk : ReconcileEnv :=
  ⟨FetchResult.found ⟨[], [], []⟩, Except.ok [depC3A, depC3B], fun _ => none⟩

theorem c5_error_propagation_witness :
    Reconcile envC5NotFound = (Except.ok (), []) ∧
    Reconcile envC5ListErr = (Except.error 3, []) ∧
    Reconcile envC5AllOk = (Except.ok (), ["app-a", "app-b"]) :=
  ⟨(c5_error_propagation envC5NotFound).1 rfl,
   (c5_error_propagation envC5ListErr).2.2.1 ⟨[], [], []⟩ 3 rfl rfl,
   ((c5_error_propagation envC5AllOk).2.2.2 ⟨[], [], []⟩ [depC3A, depC3B]
     rfl rfl).1 (fun _ _ => rfl)⟩

/-- Claim C6: when the keys-to-watch annotation is absent or present with an
empty value, parseKeysToWatch yields the empty key list, and hashing with
the empty key list equals hashing with any explicit duplicate-free key list
covering every textual and binary entry — the fingerprint is computed over
all of the object's entries, textual and binary. -/
theorem c6_empty_watchedKeys_hash_all (cm : ConfigMap) :
    (getAnn cm keyWatchAnnKey = "" → parseKeysToWatch cm = []) ∧
    (∀ allKeys : List String, allKeys.Nodup →
      (cm.data.map Prod.fst).Nodup → (cm.binaryData.map Prod.fst).Nodup →
      (∀ k ∈ cm.data.map Prod.fst, k ∈ allKeys) →
      (∀ k ∈ cm.binaryData.map Prod.fst, k ∈ allKeys) →
      GetConfigMapHash cm allKeys = GetConfigMapHash cm []) := by
  constructor
  · intro h
    unfold parseKeysToWatch
    simp [h]
  · intro allKeys hka hkd hkb hcd hcb
    unfold GetConfigMapHash
    have hperm : (hashValues cm allKeys).Perm (hashValues cm []) := by
      cases allKeys with
      | nil => exact List.Perm.refl _
      | cons k rest =>
        rw [hashValues_cons, hashValues_nil, foldl_hashStep_flatMap, List.nil_append]
        exact flatMap_renderKey_perm (k :: rest) cm.data cm.binaryData
          hka hkd hkb hcd hcb
    rw [sortStrings_eq_of_perm hperm]

def cmC6 : ConfigMap := ⟨[("a", "1")], [("b", [7, 200])], []⟩

theorem c6_empty_watchedKeys_hash_all_witness :
    parseKeysToWatch cmC6 = [] ∧
    GetConfigMapHash cmC6 ["b", "a"] = GetConfigMapHash cmC6 [] :=
  ⟨(c6_empty_watchedKeys_hash_all cmC6).1 (by decide),
   (c6_empty_watchedKeys_hash_all cmC6).2 ["b", "a"] (by decide) (by decide)
     (by decide) (by decide) (by decide)⟩

/-- Claim C7: reference extraction returns exactly the set of configuration
object names appearing in volumes, per-container direct env entries,
per-container bulk env imports, and the same three places of init
containers, with duplicates collapsed (the returned list is duplicate-free);
for both the ConfigMap and the Secret indexer. -/
theorem c7_reference_extraction (d : Deployment) (n : String) :
    (n ∈ indexConfigMapRefs d ↔ referencesConfigMap d n) ∧
    (indexConfigMapRefs d).Nodup ∧
    (n ∈ indexSecretRefs d ↔ referencesSecret d n) ∧
    (indexSecretRefs d).Nodup := by
  have hcmg := mem_foldl_of_step containerCMStep _ mem_containerCMStep
  have hsg := mem_foldl_of_step containerSecretStep _ mem_containerSecretStep
  have hcmnd : ∀ (s : List String) (c : Container), s.Nodup →
      (containerCMStep s c).Nodup := fun s c hs =>
    nodup_collectRefs _ _ _ (nodup_collectRefs _ _ _ hs)
  have hsnd : ∀ (s : List String) (c : Container), s.Nodup →
      (containerSecretStep s c).Nodup := fun s c hs =>
    nodup_collectRefs _ _ _ (nodup_collectRefs _ _ _ hs)
  refine ⟨?_, ?_, ?_, ?_⟩
  · unfold indexConfigMapRefs referencesConfigMap
    rw [hcmg, hcmg, mem_collectRefs]
    simp only [List.mem_nil_iff, false_or, or_assoc]
  · exact nodup_foldl_of_step containerCMStep hcmnd _ _
      (nodup_foldl_of_step containerCMStep hcmnd _ _
        (nodup_collectRefs _ _ _ List.nodup_nil))
  · unfold indexSecretRefs referencesSecret
    rw [hsg, hsg, mem_collectRefs]
    simp only [List.mem_nil_iff, false_or, or_assoc]
  · exact nodup_foldl_of_step containerSecretStep hsnd _ _
      (nodup_foldl_of_step containerSecretStep hsnd _ _
        (nodup_collectRefs _ _ _ List.nodup_nil))

/-- Claim C8: the restart mutation only sets the reload-timestamp annotation
on the pod template: name, replicas and the pod spec are untouched, every
other annotation key keeps its value, the reload key holds the new
timestamp, and re-applying the mutation (redelivery) is the same as applying
only the newer one. -/
theorem c8_reload_frame (d : Deployment) (t1 t2 : String) :
    (TriggerDeploymentReload t1 d).name = d.name ∧
    (TriggerDeploymentReload t1 d).replicas = d.replicas ∧
    (TriggerDeploymentReload t1 d).template.spec = d.template.spec ∧
    (TriggerDeploymentReload t1 d).template.anns.lookup reloadTsAnnKey = some t1 ∧
    (∀ k : String, k ≠ reloadTsAnnKey →
      (TriggerDeploymentReload t1 d).template.anns.lookup k =
        d.template.anns.lookup k) ∧
    TriggerDeploymentReload t2 (TriggerDeploymentReload t1 d) =
      TriggerDeploymentReload t2 d := by
  refine ⟨rfl, rfl, rfl, lookup_setAnn_self reloadTsAnnKey t1 d.template.anns,
    fun k hk => lookup_setAnn_ne reloadTsAnnKey t1 k hk d.template.anns, ?_⟩
  unfold TriggerDeploymentReload
  simp [setAnn_setAnn]

def depC8 : Deployment :=
  ⟨"web", 3, ⟨[("team", "infra")], ⟨[], [], []⟩⟩⟩

theorem c8_reload_frame_witness :
    (TriggerDeploymentReload "2024-01-01T00:00:00Z" depC8).template.anns.lookup "team" =
      depC8.template.anns.lookup "team" :=
  (c8_reload_frame depC8 "2024-01-01T00:00:00Z" "2024-01-02T00:00:00Z").2.2.2.2.1
    "team" (by decide)

/-- Claim C9, amended.  The fingerprint is the minimal-length lowercase hex
rendering of a 64-bit FNV-1a digest — at most 16 hex digits, every
character a hex digit — but it is not zero-padded, so its length varies
with the input. -/
theorem c9_hex_bounded (cm : ConfigMap) (keysToWatch : List String) :
    (GetConfigMapHash cm keysToWatch).length ≤ 16 ∧
    ∀ c ∈ (GetConfigMapHash cm keysToWatch).data, c ∈ hexDigits := by
  constructor
  · exact toHex64_length_le _
  · intro c hc
    exact toHex64_mem_hexDigits _ c hc

def cmC9Sixteen : ConfigMap := ⟨[("k", "a")], [], []⟩

def cmC9Fifteen : ConfigMap := ⟨[("k", "iaa")], [], []⟩

/-- Claim C9 as stated is false on the code: Sprintf verb x does not
zero-pad, so two objects can fingerprint to hex strings of different
lengths (16 and 15 digits here). -/
theorem c9_counterexample :
    (GetConfigMapHash cmC9Sixteen []).length = 16 ∧
    (GetConfigMapHash cmC9Fifteen []).length = 15 := by decide

theorem c9_hex_bounded_witness :
    (GetConfigMapHash ⟨[], [], []⟩ []).length ≤ 16 ∧ 'c' ∈ hexDigits :=
  ⟨(c9_hex_bounded ⟨[], [], []⟩ []).1,
   (c9_hex_bounded ⟨[], [], []⟩ []).2 'c' (by decide)⟩

/-- Claim C10: parseWatch treats any watch annotation value other than the
exact strings "true" and "false" (for example "True", "yes", or "0") as
tracked — it compares only against "false". -/
theorem c10_watch_default_true (cm : ConfigMap) (v : String)
    (h1 : v ≠ "true") (h2 : v ≠ "false")
    (h : getAnn cm watchAnnKey = v) :
    parseWatch cm = true := by
  simp [parseWatch, h, h2]

theorem c10_watch_default_true_witness :
    parseWatch ⟨[], [], [(watchAnnKey, "True")]⟩ = true :=
  c10_watch_default_true ⟨[], [], [(watchAnnKey, "True")]⟩ "True"
    (by decide) (by decide) (by decide)
